import Mathlib

/-!
Shallow embedding of `src/trader.py`: the lot/instance data model, the
instance validator, the per-lot profit model, the subset-enumeration solver
(`TraderSubset.calculate`), the knapsack DP solver (`TraderDP.calculate`),
and the complexity-based algorithm selector (`_get_trader_class`).

Python `float` values (`price_percent`) are embedded as exact rationals;
Python's unbounded `int` is `Int`.  The Python dict that maps index tuples
to (profit, cost) pairs is embedded as an association list in insertion
order; the two DP arrays (indexed by funds level `0..total_funds`) are
embedded as functions `Nat → Int` / `Nat → List Nat` with pointwise update.
Code paths on which the Python program raises an uncaught exception
(`validate` on an empty lot list; the DP solver when `total_funds` or a lot
cost is negative, where the list indexing raises) are outside the domain of
the claims about returned results, so DP theorems carry the corresponding
non-negativity hypotheses.
-/

structure LotSchema where
  day_number : Int
  name : String
  price_percent : ℚ
  size : Int
deriving DecidableEq, Repr

structure TraderSchema where
  total_days : Int
  lot_count_per_day : Int
  total_funds : Int
  lots : List LotSchema := []
deriving DecidableEq, Repr

/-- `TraderSchema.validate`: recompute the maximal day number and the maximal
number of lots sharing one day, and compare with the declared fields.
`Counter(day_numbers).values()` is embedded as the list of counts of the
distinct day numbers.  On an empty lot list Python's `max()` raises; that
path is the final `Except.error`. -/
def TraderSchema.validate (self : TraderSchema) : Except String Unit :=
  let day_numbers := self.lots.map (fun lot => lot.day_number)
  match (day_numbers.dedup.map (fun d => (day_numbers.count d : Int))).max?,
      day_numbers.max? with
  | some max_lot_count_per_day, some max_total_days =>
    if self.total_days ≠ max_total_days then
      Except.error ("invalid total_days value " ++ toString self.total_days)
    else if self.lot_count_per_day ≠ max_lot_count_per_day then
      Except.error ("invalid lot_count_per_day value " ++ toString self.lot_count_per_day)
    else
      Except.ok ()
  | _, _ => Except.error "max() arg is an empty sequence"

structure LotsResultSchema where
  lots : List Nat := []
  profit : Int := 0
  cost : Int := 0
deriving DecidableEq, Repr

/-- The state `BaseTrader.__init__` builds from a schema and the three bond
parameters. -/
structure BaseTrader where
  total_days : Int
  total_funds : Int
  lots : List LotSchema
  bond_redemtion_days : Int
  bond_par_value : Int
  bond_payment_per_day : Int
deriving DecidableEq, Repr

def BaseTrader.ofSchema (trader_schema : TraderSchema)
    (bond_redemtion_days bond_par_value bond_payment_per_day : Int) : BaseTrader :=
  { total_days := trader_schema.total_days
    total_funds := trader_schema.total_funds
    lots := trader_schema.lots
    bond_redemtion_days := bond_redemtion_days
    bond_par_value := bond_par_value
    bond_payment_per_day := bond_payment_per_day }

def BaseTrader.days_factor (self : BaseTrader) : Int :=
  self.total_days + self.bond_redemtion_days

/-- `BaseTrader._calculate_profit`.  `int(price_percent * par // 100)` is the
floor of the exact product, embedded through ℚ. -/
def BaseTrader.calculate_profit (self : BaseTrader) (lot : LotSchema) : Int × Int :=
  let lot_price : Int := ⌊lot.price_percent * (self.bond_par_value : ℚ) / 100⌋
  let bond_profit := (self.days_factor - lot.day_number) * self.bond_payment_per_day
  let bond_consumption := self.bond_par_value - lot_price
  let lot_profit := lot.size * (bond_profit + bond_consumption)
  let lot_cost := lot.size * lot_price
  (lot_profit, lot_cost)

/-- One pass of `TraderSubset.calculate` over the snapshot of `lots_map` for
the lot at index `idx`: returns the entries appended to `new_lots_map` (in
iteration order) and the updated running result. -/
def subsetInner (total_funds : Int) (idx : Nat) (lot_profit lot_cost : Int) :
    List (List Nat × Int × Int) → LotsResultSchema →
      List (List Nat × Int × Int) × LotsResultSchema
  | [], result => ([], result)
  | (used_lots, profit, cost) :: rest, result =>
    let new_profit := profit + lot_profit
    let new_cost := lot_cost + cost
    if new_cost ≤ total_funds then
      let new_lots := used_lots ++ [idx]
      let result1 : LotsResultSchema :=
        if result.profit < new_profit then ⟨new_lots, new_profit, new_cost⟩ else result
      let step := subsetInner total_funds idx lot_profit lot_cost rest result1
      ((new_lots, new_profit, new_cost) :: step.1, step.2)
    else
      subsetInner total_funds idx lot_profit lot_cost rest result

/-- The outer `for idx, lot in enumerate(...)` loop of `TraderSubset.calculate`,
with the per-lot (profit, cost) pairs already computed. -/
def subsetLoop (total_funds : Int) :
    Nat → List (Int × Int) → List (List Nat × Int × Int) → LotsResultSchema → LotsResultSchema
  | _, [], _, result => result
  | idx, (lot_profit, lot_cost) :: rest, lots_map, result =>
    let step := subsetInner total_funds idx lot_profit lot_cost lots_map result
    subsetLoop total_funds (idx + 1) rest (lots_map ++ step.1) step.2

def subsetCore (total_funds : Int) (pcs : List (Int × Int)) : LotsResultSchema :=
  subsetLoop total_funds 0 pcs [([], 0, 0)] ⟨[], 0, 0⟩

/-- `TraderSubset.calculate`. -/
def TraderSubset.calculate (self : BaseTrader) : LotsResultSchema :=
  subsetCore self.total_funds (self.lots.map self.calculate_profit)

def updFn {α : Type} (f : Nat → α) (i : Nat) (v : α) : Nat → α :=
  fun j => if j = i then v else f j

abbrev DPState := (Nat → Int) × (Nat → List Nat)

/-- The body of the inner `for funds in range(total_funds, lot_cost - 1, -1)`
loop of `TraderDP.calculate` at one funds level.  The guard `lot_cost ≤ funds`
realises the lower bound of the Python `range`. -/
def dpStep (lot_profit lot_cost : Int) (idx funds : Nat) (st : DPState) : DPState :=
  if lot_cost ≤ (funds : Int) then
    let new_profit := st.1 (funds - lot_cost.toNat) + lot_profit
    if st.1 funds < new_profit then
      (updFn st.1 funds new_profit,
       updFn st.2 funds (st.2 (funds - lot_cost.toNat) ++ [idx]))
    else st
  else st

/-- The inner loop of `TraderDP.calculate`, scanning funds levels from `g`
down to `0`. -/
def dpPass (lot_profit lot_cost : Int) (idx : Nat) : Nat → DPState → DPState
  | 0, st => dpStep lot_profit lot_cost idx 0 st
  | g + 1, st => dpPass lot_profit lot_cost idx g (dpStep lot_profit lot_cost idx (g + 1) st)

/-- The outer `for idx, lot in enumerate(...)` loop of `TraderDP.calculate`. -/
def dpLoop (N : Nat) : Nat → List (Int × Int) → DPState → DPState
  | _, [], st => st
  | idx, (lot_profit, lot_cost) :: rest, st =>
    dpLoop N (idx + 1) rest (dpPass lot_profit lot_cost idx N st)

/-- `max(range(N + 1), key=lambda x: max_profit[x])`: the first index with
maximal value (Python's `max` keeps the earliest maximum). -/
def argmaxFirst (mp : Nat → Int) (N : Nat) : Nat :=
  (List.range (N + 1)).foldl (fun best x => if mp best < mp x then x else best) 0

def dpCore (total_funds : Int) (pcs : List (Int × Int)) : LotsResultSchema :=
  let N := total_funds.toNat
  let st := dpLoop N 0 pcs (fun _ => 0, fun _ => [])
  let max_funds := argmaxFirst st.1 N
  ⟨st.2 max_funds, st.1 max_funds, (max_funds : Int)⟩

/-- `TraderDP.calculate`. -/
def TraderDP.calculate (self : BaseTrader) : LotsResultSchema :=
  dpCore self.total_funds (self.lots.map self.calculate_profit)

def TraderSubset.get_complexity (trader_schema : TraderSchema) : Int :=
  let lots_count := trader_schema.lots.length
  (lots_count : Int) * 2 ^ lots_count

def TraderDP.get_complexity (trader_schema : TraderSchema) : Int :=
  (trader_schema.lots.length : Int) * trader_schema.total_funds

inductive AlgorithmKind where
  | subset
  | dp
deriving DecidableEq, Repr

/-- `_get_trader_class`: `min((TraderSubset, TraderDP), key=get_complexity)`.
Python's `min` returns the first element attaining the minimum, so
`TraderSubset` wins ties. -/
def get_trader_class (trader_schema : TraderSchema) : AlgorithmKind :=
  if TraderSubset.get_complexity trader_schema ≤ TraderDP.get_complexity trader_schema then
    AlgorithmKind.subset
  else
    AlgorithmKind.dp

/-!
Specification-side definitions, written from the words of the spec, to be
compared with the source embedding above.
-/

/-- The profit model exactly as §4.1 of the spec writes it. -/
def profit_and_cost (lot : LotSchema)
    (bond_redemption_days bond_par_value bond_payment_per_day total_days : Int) : Int × Int :=
  let lot_price : Int := ⌊lot.price_percent * (bond_par_value : ℚ) / 100⌋
  let days_factor := total_days + bond_redemption_days
  let bond_profit_per_unit := (days_factor - lot.day_number) * bond_payment_per_day
  let bond_consumption_per_unit := bond_par_value - lot_price
  (lot.size * (bond_profit_per_unit + bond_consumption_per_unit), lot.size * lot_price)

/-- The maximal `day_number` over the lot sequence (spec §4.2). -/
def specMaxDay (ts : TraderSchema) : Option Int :=
  (ts.lots.map (fun lot => lot.day_number)).max?

/-- The maximal number of lots sharing a single day (spec §4.2), computed as
the maximum over the lots of the number of lots on the same day. -/
def specMaxPerDay (ts : TraderSchema) : Option Int :=
  (ts.lots.map (fun lot =>
    ((ts.lots.filter (fun l => l.day_number = lot.day_number)).length : Int))).max?

/-- Per-index profit of the precomputed (profit, cost) list. -/
def profit1 (pcs : List (Int × Int)) (i : Nat) : Int := (pcs.getD i (0, 0)).1

/-- Per-index cost of the precomputed (profit, cost) list. -/
def cost1 (pcs : List (Int × Int)) (i : Nat) : Int := (pcs.getD i (0, 0)).2

/-- Total profit of a selection of indices. -/
def profitOf (pcs : List (Int × Int)) (S : List Nat) : Int := (S.map (profit1 pcs)).sum

/-- Total cost of a selection of indices. -/
def costOf (pcs : List (Int × Int)) (S : List Nat) : Int := (S.map (cost1 pcs)).sum

/-- A well-formed selection out of `n` lots: strictly increasing indices,
all below `n`. -/
def Sel (n : Nat) (S : List Nat) : Prop :=
  S.Pairwise (· < ·) ∧ ∀ i ∈ S, i < n

/-! Helper lemmas about `List.max?` on integer lists. -/

lemma int_max?_eq_some_iff {xs : List Int} {a : Int} :
    xs.max? = some a ↔ a ∈ xs ∧ ∀ b ∈ xs, b ≤ a := by
  haveI : Std.Antisymm ((· : Int) ≤ ·) := ⟨fun h h' => le_antisymm h h'⟩
  exact List.max?_eq_some_iff (fun a => le_refl a) (fun a b => max_choice a b)
    (fun a b c => max_le_iff)

lemma int_max?_congr {l1 l2 : List Int} (h : ∀ x, x ∈ l1 ↔ x ∈ l2) :
    l1.max? = l2.max? := by
  cases h1 : l1.max? with
  | none =>
    rw [List.max?_eq_none_iff] at h1
    cases h2 : l2.max? with
    | none => rfl
    | some a =>
      rw [int_max?_eq_some_iff] at h2
      have := (h a).mpr h2.1
      simp [h1] at this
  | some a =>
    rw [int_max?_eq_some_iff] at h1
    symm
    rw [int_max?_eq_some_iff]
    exact ⟨(h a).mp h1.1, fun b hb => h1.2 b ((h b).mpr hb)⟩

lemma count_map_day (L : List LotSchema) (d : Int) :
    (L.map (fun lot => lot.day_number)).count d =
      (L.filter (fun l => l.day_number = d)).length := by
  induction L with
  | nil => simp
  | cons a t ih =>
    by_cases hd : a.day_number = d <;>
      simp [List.count_cons, List.filter_cons, hd, ih]

lemma validate_counts_max_eq (ts : TraderSchema) :
    ((ts.lots.map (fun lot => lot.day_number)).dedup.map
        (fun d => (((ts.lots.map (fun lot => lot.day_number)).count d : Nat) : Int))).max?
      = specMaxPerDay ts := by
  apply int_max?_congr
  intro x
  simp only [specMaxPerDay, List.mem_map, List.mem_dedup]
  constructor
  · rintro ⟨d, ⟨lot, hlot, rfl⟩, rfl⟩
    exact ⟨lot, hlot, by rw [count_map_day]⟩
  · rintro ⟨lot, hlot, rfl⟩
    exact ⟨lot.day_number, ⟨lot, hlot, rfl⟩, by rw [count_map_day]⟩

/-- C6: for every lot and bond parameters, the profit model returns
`profit = size * ((total_days + bond_redemption_days - day_number) *
bond_payment_per_day + (bond_par_value - lot_price))` and
`cost = size * lot_price`, with `lot_price = ⌊price_percent * bond_par_value
/ 100⌋` (floor, fractional part discarded, not rounded); equivalently, the
source `_calculate_profit` agrees with the spec formula `profit_and_cost`. -/
theorem claim_C6_profit_model (bt : BaseTrader) (lot : LotSchema) :
    bt.calculate_profit lot =
      (lot.size * ((bt.total_days + bt.bond_redemtion_days - lot.day_number) *
            bt.bond_payment_per_day +
          (bt.bond_par_value - ⌊lot.price_percent * (bt.bond_par_value : ℚ) / 100⌋)),
        lot.size * ⌊lot.price_percent * (bt.bond_par_value : ℚ) / 100⌋) ∧
    bt.calculate_profit lot =
      profit_and_cost lot bt.bond_redemtion_days bt.bond_par_value bt.bond_payment_per_day
        bt.total_days := by
  exact ⟨rfl, rfl⟩

/-- C2 (amended): the selector compares `subset_cost = n * 2^n` with
`dp_cost = n * total_funds` and returns the algorithm with the strictly
lower estimate, but on ties it returns `TraderSubset` (Python's `min` keeps
the first element of `(TraderSubset, TraderDP)`), not `TraderDP`. -/
theorem claim_C2_selector (ts : TraderSchema) :
    (get_trader_class ts = AlgorithmKind.dp ↔
      (ts.lots.length : Int) * ts.total_funds <
        (ts.lots.length : Int) * 2 ^ ts.lots.length) ∧
    (get_trader_class ts = AlgorithmKind.subset ↔
      (ts.lots.length : Int) * 2 ^ ts.lots.length ≤
        (ts.lots.length : Int) * ts.total_funds) := by
  unfold get_trader_class TraderSubset.get_complexity TraderDP.get_complexity
  by_cases h : (ts.lots.length : Int) * 2 ^ ts.lots.length ≤
      (ts.lots.length : Int) * ts.total_funds
  · simp [h, not_lt.mpr h]
  · simp [h, not_le.mp h]

/-- C2 (counterexample): on a one-lot instance with `total_funds = 2` the two
estimates are equal (`1 * 2^1 = 1 * 2 = 2`), and the selector returns
`TraderSubset`, not `TraderDP` as the claim's tie-break states. -/
theorem claim_C2_tiebreak_counterexample :
    TraderSubset.get_complexity (TraderSchema.mk 1 1 2 [⟨1, "a", 100, 1⟩]) =
      TraderDP.get_complexity (TraderSchema.mk 1 1 2 [⟨1, "a", 100, 1⟩]) ∧
    get_trader_class (TraderSchema.mk 1 1 2 [⟨1, "a", 100, 1⟩]) = AlgorithmKind.subset := by
  exact ⟨rfl, rfl⟩

/-- C7: on a non-empty lot sequence, `validate` succeeds iff the declared
`total_days` equals the recomputed maximal day number and the declared
`lot_count_per_day` equals the recomputed maximal number of lots sharing a
single day; each mismatch is reported with the offending declared value
(`total_days` checked first).  The embedded `validate` is a pure function of
the schema, so it mutates nothing. -/
theorem claim_C7_validate (ts : TraderSchema) (h : ts.lots ≠ []) :
    (ts.validate = Except.ok () ↔
      specMaxDay ts = some ts.total_days ∧ specMaxPerDay ts = some ts.lot_count_per_day) ∧
    (specMaxDay ts ≠ some ts.total_days →
      ts.validate = Except.error ("invalid total_days value " ++ toString ts.total_days)) ∧
    (specMaxDay ts = some ts.total_days → specMaxPerDay ts ≠ some ts.lot_count_per_day →
      ts.validate =
        Except.error ("invalid lot_count_per_day value " ++ toString ts.lot_count_per_day)) := by
  have hds : ts.lots.map (fun lot => lot.day_number) ≠ [] := by
    simpa using h
  obtain ⟨m, hm⟩ : ∃ m, (ts.lots.map (fun lot => lot.day_number)).max? = some m := by
    cases hc : (ts.lots.map (fun lot => lot.day_number)).max? with
    | none => exact absurd (List.max?_eq_none_iff.mp hc) hds
    | some m => exact ⟨m, rfl⟩
  obtain ⟨c, hcnt⟩ : ∃ c, ((ts.lots.map (fun lot => lot.day_number)).dedup.map
      (fun d => (((ts.lots.map (fun lot => lot.day_number)).count d : Nat) : Int))).max?
        = some c := by
    cases hc : ((ts.lots.map (fun lot => lot.day_number)).dedup.map
        (fun d => (((ts.lots.map (fun lot => lot.day_number)).count d : Nat) : Int))).max? with
    | none =>
      rw [List.max?_eq_none_iff, List.map_eq_nil_iff, List.dedup_eq_nil] at hc
      exact absurd hc hds
    | some c => exact ⟨c, rfl⟩
  have hspecd : specMaxDay ts = some m := hm
  have hspecc : specMaxPerDay ts = some c := by rw [← validate_counts_max_eq ts, hcnt]
  have hval : ts.validate =
      (if ts.total_days ≠ m then
        Except.error ("invalid total_days value " ++ toString ts.total_days)
      else if ts.lot_count_per_day ≠ c then
        Except.error ("invalid lot_count_per_day value " ++ toString ts.lot_count_per_day)
      else Except.ok ()) := by
    simp only [TraderSchema.validate]
    rw [hm, hcnt]
  rw [hval, hspecd, hspecc]
  refine ⟨?_, ?_, ?_⟩
  · by_cases h1 : ts.total_days = m <;> by_cases h2 : ts.lot_count_per_day = c <;>
      simp [h1, h2, eq_comm] <;> omega
  · intro hne
    have h1 : ts.total_days ≠ m := by
      intro e
      exact hne (by rw [e])
    simp [h1]
  · intro heq hne
    have h1 : ts.total_days = m := by
      injection heq with e
      exact e.symm
    have h2 : ts.lot_count_per_day ≠ c := by
      intro e
      exact hne (by rw [e])
    simp [h1, h2]

/-- C7 (witness): on the concrete one-lot schema
`⟨1, 1, 5, [⟨1, "a", 95, 1⟩]⟩` the characterisation of `validate` holds. -/
theorem claim_C7_validate_witness :
    ((TraderSchema.mk 1 1 5 [⟨1, "a", 95, 1⟩]).validate = Except.ok () ↔
      specMaxDay (TraderSchema.mk 1 1 5 [⟨1, "a", 95, 1⟩]) = some 1 ∧
      specMaxPerDay (TraderSchema.mk 1 1 5 [⟨1, "a", 95, 1⟩]) = some 1) :=
  (claim_C7_validate (TraderSchema.mk 1 1 5 [⟨1, "a", 95, 1⟩]) (by decide)).1

/-- C9: `validate` never succeeds on a schema whose lot list is empty (the
two maxima are taken over an empty sequence, where Python's `max` raises),
so an empty instance cannot reach a solver through the validate-then-solve
flow. -/
theorem claim_C9_validate_empty (ts : TraderSchema) (h : ts.lots = []) :
    ts.validate ≠ Except.ok () := by
  unfold TraderSchema.validate
  rw [h]
  simp

/-- C9 (witness): the concrete empty schema `⟨0, 0, 1000, []⟩` fails
validation. -/
theorem claim_C9_validate_empty_witness :
    (TraderSchema.mk 0 0 1000 []).validate ≠ Except.ok () :=
  claim_C9_validate_empty (TraderSchema.mk 0 0 1000 []) rfl

/-! Generic facts about selections, profits and costs. -/

lemma profitOf_nil (pcs : List (Int × Int)) : profitOf pcs [] = 0 := rfl

lemma costOf_nil (pcs : List (Int × Int)) : costOf pcs [] = 0 := rfl

lemma profitOf_append_single (pcs : List (Int × Int)) (T : List Nat) (idx : Nat) :
    profitOf pcs (T ++ [idx]) = profitOf pcs T + profit1 pcs idx := by
  simp [profitOf]

lemma costOf_append_single (pcs : List (Int × Int)) (T : List Nat) (idx : Nat) :
    costOf pcs (T ++ [idx]) = costOf pcs T + cost1 pcs idx := by
  simp [costOf]

lemma costOf_nonneg (pcs : List (Int × Int)) (hcost : ∀ i, 0 ≤ cost1 pcs i)
    (S : List Nat) : 0 ≤ costOf pcs S := by
  apply List.sum_nonneg
  intro x hx
  obtain ⟨i, _, rfl⟩ := List.mem_map.mp hx
  exact hcost i

lemma cost1_nonneg_of (pcs : List (Int × Int)) (h : ∀ pc ∈ pcs, 0 ≤ pc.2) :
    ∀ i, 0 ≤ cost1 pcs i := by
  intro i
  rcases Nat.lt_or_ge i pcs.length with hi | hi
  · have : pcs.getD i (0, 0) ∈ pcs := by
      rw [List.getD_eq_getElem pcs (0, 0) hi]
      exact List.getElem_mem hi
    exact h _ this
  · unfold cost1
    rw [List.getD_eq_default pcs (0, 0) hi]

lemma pairwise_append_lt (T : List Nat) (idx : Nat)
    (hT : T.Pairwise (· < ·)) (hb : ∀ i ∈ T, i < idx) :
    (T ++ [idx]).Pairwise (· < ·) := by
  rw [List.pairwise_append]
  refine ⟨hT, List.pairwise_singleton _ _, ?_⟩
  intro a ha b hbm
  rw [List.mem_singleton] at hbm
  subst hbm
  exact hb a ha

/-- A strictly increasing list of indices bounded by `idx + 1` that contains
`idx` is a strictly increasing list of indices below `idx`, followed by
`idx`. -/
lemma pairwise_lt_split (S : List Nat) (idx : Nat)
    (hp : S.Pairwise (· < ·)) (hb : ∀ i ∈ S, i < idx + 1) (hin : idx ∈ S) :
    ∃ T, S = T ++ [idx] ∧ T.Pairwise (· < ·) ∧ ∀ i ∈ T, i < idx := by
  rcases List.eq_nil_or_concat S with hS | ⟨L, b, hS⟩
  · subst hS
    simp at hin
  · subst hS
    rw [List.concat_eq_append] at *
    rw [List.pairwise_append] at hp
    have hlast : ∀ a ∈ L, a < b := by
      intro a ha
      exact hp.2.2 a ha b (List.mem_singleton_self b)
    have hbidx : b = idx := by
      rcases List.mem_append.mp hin with hL | hb1
      · exact absurd (hb b (by simp)) (by have := hlast idx hL; omega)
      · exact (List.mem_singleton.mp hb1).symm
    subst hbidx
    exact ⟨L, rfl, hp.1, hlast⟩

/-! Invariants of the subset-enumeration solver. -/

/-- A `lots_map` entry after processing the first `k` lots: the stored pair
is the exact profit/cost of the key, the key is a strictly increasing list
of indices below `k`. -/
def EntOK (pcs : List (Int × Int)) (k : Nat) (e : List Nat × Int × Int) : Prop :=
  e.2.1 = profitOf pcs e.1 ∧ e.2.2 = costOf pcs e.1 ∧
  e.1.Pairwise (· < ·) ∧ ∀ i ∈ e.1, i < k

/-- The running `result` after processing the first `k` lots. -/
def ResOK (pcs : List (Int × Int)) (F : Int) (k : Nat) (res : LotsResultSchema) : Prop :=
  res.profit = profitOf pcs res.lots ∧ res.cost = costOf pcs res.lots ∧
  res.lots.Pairwise (· < ·) ∧ (∀ i ∈ res.lots, i < k) ∧ 0 ≤ res.profit ∧
  (res.lots = [] ∨ res.cost ≤ F)

lemma EntOK_mono {pcs : List (Int × Int)} {k k' : Nat} {e : List Nat × Int × Int}
    (h : EntOK pcs k e) (hk : k ≤ k') : EntOK pcs k' e :=
  ⟨h.1, h.2.1, h.2.2.1, fun i hi => lt_of_lt_of_le (h.2.2.2 i hi) hk⟩

lemma ResOK_mono {pcs : List (Int × Int)} {F : Int} {k k' : Nat} {res : LotsResultSchema}
    (h : ResOK pcs F k res) (hk : k ≤ k') : ResOK pcs F k' res :=
  ⟨h.1, h.2.1, h.2.2.1, fun i hi => lt_of_lt_of_le (h.2.2.2.1 i hi) hk,
    h.2.2.2.2.1, h.2.2.2.2.2⟩

lemma subsetInner_sound (pcs : List (Int × Int)) (F : Int) (idx : Nat) :
    ∀ (m : List (List Nat × Int × Int)) (res : LotsResultSchema),
    (∀ e ∈ m, EntOK pcs idx e) → ResOK pcs F (idx + 1) res →
    (∀ e ∈ (subsetInner F idx (profit1 pcs idx) (cost1 pcs idx) m res).1,
        EntOK pcs (idx + 1) e ∧ e.2.2 ≤ F) ∧
    ResOK pcs F (idx + 1) (subsetInner F idx (profit1 pcs idx) (cost1 pcs idx) m res).2 ∧
    res.profit ≤ (subsetInner F idx (profit1 pcs idx) (cost1 pcs idx) m res).2.profit := by
  intro m
  induction m with
  | nil =>
    intro res _ hres
    exact ⟨by simp [subsetInner], hres, le_refl _⟩
  | cons e rest ih =>
    obtain ⟨u, p, c⟩ := e
    intro res hm hres
    have he : EntOK pcs idx (u, p, c) := hm _ (List.mem_cons_self _ _)
    have hrest : ∀ e ∈ rest, EntOK pcs idx e := fun e h => hm e (List.mem_cons_of_mem _ h)
    by_cases hadm : cost1 pcs idx + c ≤ F
    · have hcand : EntOK pcs (idx + 1) (u ++ [idx], p + profit1 pcs idx, cost1 pcs idx + c) := by
        refine ⟨?_, ?_, ?_, ?_⟩
        · rw [profitOf_append_single, ← he.1]
        · rw [costOf_append_single, ← he.2.1]
          ring
        · exact pairwise_append_lt u idx he.2.2.1 he.2.2.2
        · intro i hi
          rcases List.mem_append.mp hi with h1 | h2
          · exact lt_of_lt_of_le (he.2.2.2 i h1) (Nat.le_succ idx)
          · rw [List.mem_singleton.mp h2]
            exact Nat.lt_succ_self idx
      set res1 : LotsResultSchema :=
        if res.profit < p + profit1 pcs idx then
          ⟨u ++ [idx], p + profit1 pcs idx, cost1 pcs idx + c⟩
        else res with hres1def
      have hres1 : ResOK pcs F (idx + 1) res1 := by
        rw [hres1def]
        split
        · rename_i hlt
          refine ⟨hcand.1, hcand.2.1, hcand.2.2.1, hcand.2.2.2, ?_, Or.inr hadm⟩
          exact le_of_lt (lt_of_le_of_lt hres.2.2.2.2.1 hlt)
        · exact hres
      have hle1 : res.profit ≤ res1.profit := by
        rw [hres1def]
        split
        · rename_i hlt
          exact le_of_lt hlt
        · exact le_refl _
      obtain ⟨htail, hfin, hle2⟩ := ih res1 hrest hres1
      refine ⟨?_, ?_, ?_⟩
      · intro e hin
        simp only [subsetInner, if_pos hadm] at hin
        rcases List.mem_cons.mp hin with rfl | htl
        · exact ⟨hcand, hadm⟩
        · exact htail e htl
      · simp only [subsetInner, if_pos hadm]
        exact hfin
      · simp only [subsetInner, if_pos hadm]
        exact le_trans hle1 hle2
    · obtain ⟨htail, hfin, hle2⟩ := ih res hrest hres
      refine ⟨?_, ?_, ?_⟩
      · intro e hin
        simp only [subsetInner, if_neg hadm] at hin
        exact htail e hin
      · simp only [subsetInner, if_neg hadm]
        exact hfin
      · simp only [subsetInner, if_neg hadm]
        exact hle2

lemma subsetInner_profit_mono (F : Int) (idx : Nat) (lp lc : Int) :
    ∀ (m : List (List Nat × Int × Int)) (res : LotsResultSchema),
    res.profit ≤ (subsetInner F idx lp lc m res).2.profit := by
  intro m
  induction m with
  | nil => intro res; simp [subsetInner]
  | cons e rest ih =>
    obtain ⟨u, p, c⟩ := e
    intro res
    by_cases hadm : lc + c ≤ F
    · simp only [subsetInner, if_pos hadm]
      refine le_trans ?_ (ih _)
      split
      · rename_i hlt
        exact le_of_lt hlt
      · exact le_refl _
    · simp only [subsetInner, if_neg hadm]
      exact ih res

lemma subsetInner_tail_dominated (F : Int) (idx : Nat) (lp lc : Int) :
    ∀ (m : List (List Nat × Int × Int)) (res : LotsResultSchema),
    ∀ e ∈ (subsetInner F idx lp lc m res).1,
      e.2.1 ≤ (subsetInner F idx lp lc m res).2.profit := by
  intro m
  induction m with
  | nil => intro res e he; simp [subsetInner] at he
  | cons x rest ih =>
    obtain ⟨u, p, c⟩ := x
    intro res e he
    by_cases hadm : lc + c ≤ F
    · simp only [subsetInner, if_pos hadm] at he ⊢
      rcases List.mem_cons.mp he with rfl | htl
      · refine le_trans ?_ (subsetInner_profit_mono F idx lp lc rest _)
        split
        · exact le_refl _
        · rename_i hnlt
          exact le_of_not_lt hnlt
      · exact ih _ e htl
    · simp only [subsetInner, if_neg hadm] at he ⊢
      exact ih res e he

lemma subsetInner_admits (F : Int) (idx : Nat) (lp lc : Int) :
    ∀ (m : List (List Nat × Int × Int)) (res : LotsResultSchema) (u : List Nat) (p c : Int),
    (u, p, c) ∈ m → lc + c ≤ F →
    (u ++ [idx], p + lp, lc + c) ∈ (subsetInner F idx lp lc m res).1 := by
  intro m
  induction m with
  | nil => intro res u p c hin; simp at hin
  | cons x rest ih =>
    obtain ⟨u0, p0, c0⟩ := x
    intro res u p c hin hle
    rcases List.mem_cons.mp hin with heq | htl
    · simp only [Prod.mk.injEq] at heq
      obtain ⟨rfl, rfl, rfl⟩ := heq
      simp only [subsetInner, if_pos hle]
      exact List.mem_cons_self _ _
    · by_cases hadm : lc + c0 ≤ F
      · simp only [subsetInner, if_pos hadm]
        exact List.mem_cons_of_mem _ (ih _ u p c htl hle)
      · simp only [subsetInner, if_neg hadm]
        exact ih res u p c htl hle


lemma drop_head_spec :
    ∀ (idx : Nat) (pcs : List (Int × Int)) (a : Int × Int) (rest : List (Int × Int)),
    pcs.drop idx = a :: rest →
    profit1 pcs idx = a.1 ∧ cost1 pcs idx = a.2 ∧ pcs.drop (idx + 1) = rest := by
  intro idx
  induction idx with
  | zero =>
    intro pcs a rest h
    rw [List.drop_zero] at h
    subst h
    exact ⟨rfl, rfl, by simp⟩
  | succ n ih =>
    intro pcs a rest h
    cases pcs with
    | nil => simp at h
    | cons p ps =>
      rw [List.drop_succ_cons] at h
      obtain ⟨h1, h2, h3⟩ := ih ps a rest h
      refine ⟨?_, ?_, ?_⟩
      · rw [← h1]
        rfl
      · rw [← h2]
        rfl
      · rw [← h3]
        rfl

/-- Completeness of the `lots_map`: every strictly increasing selection of
indices below `k` whose total cost fits the budget is a key of the map,
stored with its exact profit and cost. -/
def MapComp (pcs : List (Int × Int)) (F : Int) (k : Nat)
    (m : List (List Nat × Int × Int)) : Prop :=
  ∀ S : List Nat, S.Pairwise (· < ·) → (∀ i ∈ S, i < k) → costOf pcs S ≤ F →
    (S, profitOf pcs S, costOf pcs S) ∈ m

lemma subsetLoop_sound (pcs : List (Int × Int)) (F : Int) :
    ∀ (rest : List (Int × Int)) (idx : Nat) (m : List (List Nat × Int × Int))
      (res : LotsResultSchema),
    rest = pcs.drop idx →
    (∀ e ∈ m, EntOK pcs idx e) → ResOK pcs F idx res →
    ResOK pcs F (idx + rest.length) (subsetLoop F idx rest m res) := by
  intro rest
  induction rest with
  | nil =>
    intro idx m res _ _ hres
    simpa [subsetLoop] using hres
  | cons a rest' ih =>
    intro idx m res hdrop hm hres
    obtain ⟨hlp, hlc, hdrop'⟩ := drop_head_spec idx pcs a rest' hdrop.symm
    obtain ⟨u, v⟩ := a
    simp only at hlp hlc
    subst hlp
    subst hlc
    have hstep := subsetInner_sound pcs F idx m res hm (ResOK_mono hres (Nat.le_succ idx))
    have hm' : ∀ e ∈ m ++ (subsetInner F idx (profit1 pcs idx) (cost1 pcs idx) m res).1,
        EntOK pcs (idx + 1) e := by
      intro e he
      rcases List.mem_append.mp he with h1 | h2
      · exact EntOK_mono (hm e h1) (Nat.le_succ idx)
      · exact (hstep.1 e h2).1
    have hrec := ih (idx + 1)
      (m ++ (subsetInner F idx (profit1 pcs idx) (cost1 pcs idx) m res).1)
      (subsetInner F idx (profit1 pcs idx) (cost1 pcs idx) m res).2
      hdrop'.symm hm' hstep.2.1
    have harith : idx + ((profit1 pcs idx, cost1 pcs idx) :: rest').length =
        idx + 1 + rest'.length := by
      simp only [List.length_cons]
      omega
    rw [harith]
    simp only [subsetLoop]
    exact hrec

lemma subsetLoop_complete (pcs : List (Int × Int)) (F : Int)
    (hcost : ∀ i, 0 ≤ cost1 pcs i) :
    ∀ (rest : List (Int × Int)) (idx : Nat) (m : List (List Nat × Int × Int))
      (res : LotsResultSchema),
    rest = pcs.drop idx →
    MapComp pcs F idx m →
    (∀ e ∈ m, e.2.1 ≤ res.profit) →
    ∀ S : List Nat, S.Pairwise (· < ·) → (∀ i ∈ S, i < idx + rest.length) →
      costOf pcs S ≤ F →
      profitOf pcs S ≤ (subsetLoop F idx rest m res).profit := by
  intro rest
  induction rest with
  | nil =>
    intro idx m res _ hcomp hdom S hp hb hc
    have := hcomp S hp (by simpa using hb) hc
    simpa [subsetLoop] using hdom _ this
  | cons a rest' ih =>
    intro idx m res hdrop hcomp hdom S hp hb hc
    obtain ⟨hlp, hlc, hdrop'⟩ := drop_head_spec idx pcs a rest' hdrop.symm
    obtain ⟨u, v⟩ := a
    simp only at hlp hlc
    subst hlp
    subst hlc
    simp only [subsetLoop]
    set tail := (subsetInner F idx (profit1 pcs idx) (cost1 pcs idx) m res).1 with htaildef
    set res' := (subsetInner F idx (profit1 pcs idx) (cost1 pcs idx) m res).2 with hresdef
    have hcomp' : MapComp pcs F (idx + 1) (m ++ tail) := by
      intro T hTp hTb hTc
      by_cases hidx : idx ∈ T
      · obtain ⟨T0, rfl, hT0p, hT0b⟩ := pairwise_lt_split T idx hTp hTb hidx
        rw [costOf_append_single] at hTc
        have hT0c : costOf pcs T0 ≤ F := by
          have := hcost idx
          linarith
        have hmem := hcomp T0 hT0p hT0b hT0c
        have hadd := subsetInner_admits F idx (profit1 pcs idx) (cost1 pcs idx) m res
          T0 (profitOf pcs T0) (costOf pcs T0) hmem (by linarith)
        rw [profitOf_append_single, costOf_append_single]
        apply List.mem_append_right
        rw [htaildef]
        have hcomm2 : costOf pcs T0 + cost1 pcs idx =
            cost1 pcs idx + costOf pcs T0 := by ring
        rw [hcomm2]
        exact hadd
      · have hTb' : ∀ i ∈ T, i < idx := by
          intro i hi
          have hlt := hTb i hi
          rcases Nat.lt_succ_iff_lt_or_eq.mp hlt with h1 | h2
          · exact h1
          · exact absurd (h2 ▸ hi) hidx
        exact List.mem_append_left _ (hcomp T hTp hTb' hTc)
    have hdom' : ∀ e ∈ m ++ tail, e.2.1 ≤ res'.profit := by
      intro e he
      rcases List.mem_append.mp he with h1 | h2
      · exact le_trans (hdom e h1)
          (subsetInner_profit_mono F idx (profit1 pcs idx) (cost1 pcs idx) m res)
      · exact subsetInner_tail_dominated F idx (profit1 pcs idx) (cost1 pcs idx) m res e h2
    exact ih (idx + 1) (m ++ tail) res' hdrop'.symm hcomp' hdom' S hp
      (by
        intro i hi
        have h2 := hb i hi
        simp only [List.length_cons] at h2
        omega)
      hc

lemma subsetCore_sound (pcs : List (Int × Int)) (F : Int) :
    ResOK pcs F pcs.length (subsetCore F pcs) := by
  have hinit : ∀ e ∈ [(([] : List Nat), (0 : Int), (0 : Int))], EntOK pcs 0 e := by
    intro e he
    rw [List.mem_singleton] at he
    subst he
    exact ⟨rfl, rfl, List.Pairwise.nil, by simp⟩
  have hres : ResOK pcs F 0 ⟨[], 0, 0⟩ :=
    ⟨rfl, rfl, List.Pairwise.nil, by simp, le_refl 0, Or.inl rfl⟩
  have := subsetLoop_sound pcs F pcs 0 [([], 0, 0)] ⟨[], 0, 0⟩ (by simp) hinit hres
  simpa [subsetCore] using this

lemma subsetCore_complete (pcs : List (Int × Int)) (F : Int)
    (hcost : ∀ i, 0 ≤ cost1 pcs i) :
    ∀ S : List Nat, S.Pairwise (· < ·) → (∀ i ∈ S, i < pcs.length) →
      costOf pcs S ≤ F → profitOf pcs S ≤ (subsetCore F pcs).profit := by
  have hinit : MapComp pcs F 0 [([], 0, 0)] := by
    intro S hp hb hc
    have hS : S = [] := by
      cases S with
      | nil => rfl
      | cons i t => exact absurd (hb i (List.mem_cons_self i t)) (Nat.not_lt_zero i)
    subst hS
    simp [profitOf, costOf]
  have hdom : ∀ e ∈ [(([] : List Nat), (0 : Int), (0 : Int))], e.2.1 ≤ (0 : Int) := by
    intro e he
    rw [List.mem_singleton] at he
    subst he
    exact le_refl 0
  intro S hp hb hc
  have := subsetLoop_complete pcs F hcost pcs 0 [([], 0, 0)] ⟨[], 0, 0⟩ (by simp)
    hinit hdom S hp (by simpa using hb) hc
  simpa [subsetCore] using this

/-! Invariants of the knapsack DP solver. -/

lemma bound_append_single {T : List Nat} {idx : Nat} (hT : ∀ i ∈ T, i < idx) :
    ∀ i ∈ T ++ [idx], i < idx + 1 := by
  intro i hi
  rcases List.mem_append.mp hi with h1 | h2
  · exact lt_trans (hT i h1) (Nat.lt_succ_self idx)
  · rw [List.mem_singleton.mp h2]
    exact Nat.lt_succ_self idx

lemma bound_lt_of_not_mem {S : List Nat} {idx : Nat} (hb : ∀ i ∈ S, i < idx + 1)
    (hnm : idx ∉ S) : ∀ i ∈ S, i < idx := by
  intro i hi
  rcases Nat.lt_succ_iff_lt_or_eq.mp (hb i hi) with h | h
  · exact h
  · exact absurd (h ▸ hi) hnm

/-- The DP invariant at one funds level `f` after `k` lots have been
processed: the profit cell is the exact profit of the recorded choice list,
the choice list fits in budget `f`, is a strictly increasing list of indices
below `k`, the profit cell is non-negative, and the cell dominates every
selection over the first `k` lots of cost at most `f`. -/
def DPInvAt (pcs : List (Int × Int)) (k : Nat) (st : DPState) (f : Nat) : Prop :=
  st.1 f = profitOf pcs (st.2 f) ∧
  costOf pcs (st.2 f) ≤ (f : Int) ∧
  (st.2 f).Pairwise (· < ·) ∧
  (∀ i ∈ st.2 f, i < k) ∧
  0 ≤ st.1 f ∧
  (∀ S : List Nat, S.Pairwise (· < ·) → (∀ i ∈ S, i < k) → costOf pcs S ≤ (f : Int) →
    profitOf pcs S ≤ st.1 f)

lemma DPInvAt_congr {pcs : List (Int × Int)} {k f : Nat} {st st' : DPState}
    (h1 : st'.1 f = st.1 f) (h2 : st'.2 f = st.2 f) (h : DPInvAt pcs k st f) :
    DPInvAt pcs k st' f := by
  unfold DPInvAt at *
  rw [h1, h2]
  exact h

lemma dpStep_other (lot_profit lot_cost : Int) (idx funds : Nat) (st : DPState)
    (f : Nat) (hf : f ≠ funds) :
    (dpStep lot_profit lot_cost idx funds st).1 f = st.1 f ∧
    (dpStep lot_profit lot_cost idx funds st).2 f = st.2 f := by
  unfold dpStep
  split
  · by_cases hup : st.1 funds < st.1 (funds - lot_cost.toNat) + lot_profit
    · simp [updFn, hf, if_pos hup]
    · simp [if_neg hup]
  · exact ⟨rfl, rfl⟩

lemma dpStep_at (pcs : List (Int × Int)) (hcost : ∀ i, 0 ≤ cost1 pcs i)
    (idx N : Nat) (st0 : DPState) (h0 : ∀ f ≤ N, DPInvAt pcs idx st0 f)
    (g : Nat) (hgN : g ≤ N) (st : DPState)
    (hlow : ∀ f ≤ g, st.1 f = st0.1 f ∧ st.2 f = st0.2 f) :
    DPInvAt pcs (idx + 1) (dpStep (profit1 pcs idx) (cost1 pcs idx) idx g st) g := by
  have hlcnn : 0 ≤ cost1 pcs idx := hcost idx
  have hg := hlow g (le_refl g)
  by_cases hlc : cost1 pcs idx ≤ (g : Int)
  · have hrle : g - (cost1 pcs idx).toNat ≤ g := Nat.sub_le _ _
    have hr := hlow _ hrle
    have hlcg : (cost1 pcs idx).toNat ≤ g := Int.toNat_le.mpr hlc
    have hcast : ((g - (cost1 pcs idx).toNat : Nat) : Int) = (g : Int) - cost1 pcs idx := by
      rw [Nat.cast_sub hlcg, Int.toNat_of_nonneg hlcnn]
    obtain ⟨s1, s2, s3, s4, s5, s6⟩ := h0 (g - (cost1 pcs idx).toNat) (le_trans hrle hgN)
    obtain ⟨t1, t2, t3, t4, t5, t6⟩ := h0 g hgN
    by_cases hupd : st.1 g < st.1 (g - (cost1 pcs idx).toNat) + profit1 pcs idx
    · have e1 : (dpStep (profit1 pcs idx) (cost1 pcs idx) idx g st).1 g =
          st.1 (g - (cost1 pcs idx).toNat) + profit1 pcs idx := by
        simp [dpStep, if_pos hlc, if_pos hupd, updFn]
      have e2 : (dpStep (profit1 pcs idx) (cost1 pcs idx) idx g st).2 g =
          st.2 (g - (cost1 pcs idx).toNat) ++ [idx] := by
        simp [dpStep, if_pos hlc, if_pos hupd, updFn]
      rw [hr.1] at e1 hupd
      rw [hr.2] at e2
      rw [hg.1] at hupd
      refine ⟨?_, ?_, ?_, ?_, ?_, ?_⟩
      · rw [e1, e2, profitOf_append_single, s1]
      · rw [e2, costOf_append_single]
        have h2 := s2
        rw [hcast] at h2
        linarith
      · rw [e2]
        exact pairwise_append_lt _ idx s3 s4
      · rw [e2]
        exact bound_append_single s4
      · rw [e1]
        linarith
      · intro S hp hb hc
        by_cases hidx : idx ∈ S
        · obtain ⟨T, rfl, hTp, hTb⟩ := pairwise_lt_split S idx hp hb hidx
          rw [profitOf_append_single]
          rw [costOf_append_single] at hc
          have hTc : costOf pcs T ≤ ((g - (cost1 pcs idx).toNat : Nat) : Int) := by
            rw [hcast]
            linarith
          have := s6 T hTp hTb hTc
          rw [e1]
          linarith
        · have hb' := bound_lt_of_not_mem hb hidx
          have := t6 S hp hb' hc
          rw [e1]
          linarith
    · have est : dpStep (profit1 pcs idx) (cost1 pcs idx) idx g st = st := by
        simp [dpStep, if_pos hlc, if_neg hupd]
      rw [est]
      rw [hr.1, hg.1] at hupd
      refine ⟨by rw [hg.1, hg.2]; exact t1, by rw [hg.2]; exact t2,
        by rw [hg.2]; exact t3,
        by rw [hg.2]; exact fun i hi => lt_trans (t4 i hi) (Nat.lt_succ_self idx),
        by rw [hg.1]; exact t5, ?_⟩
      intro S hp hb hc
      rw [hg.1]
      by_cases hidx : idx ∈ S
      · obtain ⟨T, rfl, hTp, hTb⟩ := pairwise_lt_split S idx hp hb hidx
        rw [profitOf_append_single]
        rw [costOf_append_single] at hc
        have hTc : costOf pcs T ≤ ((g - (cost1 pcs idx).toNat : Nat) : Int) := by
          rw [hcast]
          linarith
        have := s6 T hTp hTb hTc
        linarith [not_lt.mp hupd]
      · exact t6 S hp (bound_lt_of_not_mem hb hidx) hc
  · have est : dpStep (profit1 pcs idx) (cost1 pcs idx) idx g st = st := by
      simp [dpStep, if_neg hlc]
    rw [est]
    obtain ⟨t1, t2, t3, t4, t5, t6⟩ := h0 g hgN
    refine ⟨by rw [hg.1, hg.2]; exact t1, by rw [hg.2]; exact t2,
      by rw [hg.2]; exact t3,
      by rw [hg.2]; exact fun i hi => lt_trans (t4 i hi) (Nat.lt_succ_self idx),
      by rw [hg.1]; exact t5, ?_⟩
    intro S hp hb hc
    rw [hg.1]
    by_cases hidx : idx ∈ S
    · obtain ⟨T, rfl, hTp, hTb⟩ := pairwise_lt_split S idx hp hb hidx
      rw [costOf_append_single] at hc
      have := costOf_nonneg pcs hcost T
      exact absurd hc (by push_neg; linarith [not_le.mp hlc])
    · exact t6 S hp (bound_lt_of_not_mem hb hidx) hc

lemma dpPass_go (pcs : List (Int × Int)) (hcost : ∀ i, 0 ≤ cost1 pcs i)
    (idx N : Nat) (st0 : DPState) (h0 : ∀ f ≤ N, DPInvAt pcs idx st0 f) :
    ∀ (g : Nat) (st : DPState), g ≤ N →
    (∀ f ≤ g, st.1 f = st0.1 f ∧ st.2 f = st0.2 f) →
    (∀ f, g < f → f ≤ N → DPInvAt pcs (idx + 1) st f) →
    ∀ f ≤ N,
      DPInvAt pcs (idx + 1) (dpPass (profit1 pcs idx) (cost1 pcs idx) idx g st) f := by
  intro g
  induction g with
  | zero =>
    intro st hgN hlow hhigh f hfN
    show DPInvAt pcs (idx + 1) (dpStep (profit1 pcs idx) (cost1 pcs idx) idx 0 st) f
    rcases Nat.eq_zero_or_pos f with rfl | hfpos
    · exact dpStep_at pcs hcost idx N st0 h0 0 hgN st hlow
    · have hother := dpStep_other (profit1 pcs idx) (cost1 pcs idx) idx 0 st f
        (Nat.pos_iff_ne_zero.mp hfpos)
      exact DPInvAt_congr hother.1 hother.2 (hhigh f hfpos hfN)
  | succ g ih =>
    intro st hgN hlow hhigh f hfN
    show DPInvAt pcs (idx + 1)
      (dpPass (profit1 pcs idx) (cost1 pcs idx) idx g
        (dpStep (profit1 pcs idx) (cost1 pcs idx) idx (g + 1) st)) f
    apply ih (dpStep (profit1 pcs idx) (cost1 pcs idx) idx (g + 1) st)
      (le_trans (Nat.le_succ g) hgN) ?_ ?_ f hfN
    · intro f' hf'
      have hne : f' ≠ g + 1 := by omega
      have hother := dpStep_other (profit1 pcs idx) (cost1 pcs idx) idx (g + 1) st f' hne
      have := hlow f' (le_trans hf' (Nat.le_succ g))
      exact ⟨hother.1.trans this.1, hother.2.trans this.2⟩
    · intro f' hgt hle
      rcases Nat.eq_or_lt_of_le (Nat.succ_le_of_lt hgt) with heq | hlt
      · subst heq
        exact dpStep_at pcs hcost idx N st0 h0 (g + 1) hgN st hlow
      · have hne : f' ≠ g + 1 := by omega
        have hother := dpStep_other (profit1 pcs idx) (cost1 pcs idx) idx (g + 1) st f' hne
        exact DPInvAt_congr hother.1 hother.2 (hhigh f' (by omega) hle)

lemma dpPass_spec (pcs : List (Int × Int)) (hcost : ∀ i, 0 ≤ cost1 pcs i)
    (idx N : Nat) (st0 : DPState) (h0 : ∀ f ≤ N, DPInvAt pcs idx st0 f) :
    ∀ f ≤ N,
      DPInvAt pcs (idx + 1) (dpPass (profit1 pcs idx) (cost1 pcs idx) idx N st0) f := by
  apply dpPass_go pcs hcost idx N st0 h0 N st0 (le_refl N)
    (fun f _ => ⟨rfl, rfl⟩)
  intro f hgt hle
  omega

lemma DPInvAt_init (pcs : List (Int × Int)) (f : Nat) :
    DPInvAt pcs 0 (fun _ => (0 : Int), fun _ => ([] : List Nat)) f := by
  refine ⟨rfl, by simp [costOf], List.Pairwise.nil, by simp, le_refl 0, ?_⟩
  intro S _ hb _
  have hS : S = [] := by
    cases S with
    | nil => rfl
    | cons i t => exact absurd (hb i (List.mem_cons_self i t)) (Nat.not_lt_zero i)
  subst hS
  simp [profitOf]

lemma dpLoop_spec (pcs : List (Int × Int)) (hcost : ∀ i, 0 ≤ cost1 pcs i) (N : Nat) :
    ∀ (rest : List (Int × Int)) (idx : Nat) (st : DPState),
    rest = pcs.drop idx →
    (∀ f ≤ N, DPInvAt pcs idx st f) →
    ∀ f ≤ N, DPInvAt pcs (idx + rest.length) (dpLoop N idx rest st) f := by
  intro rest
  induction rest with
  | nil =>
    intro idx st _ hinv f hf
    simpa [dpLoop] using hinv f hf
  | cons a rest' ih =>
    intro idx st hdrop hinv f hf
    obtain ⟨hlp, hlc, hdrop'⟩ := drop_head_spec idx pcs a rest' hdrop.symm
    obtain ⟨u, v⟩ := a
    simp only at hlp hlc
    subst hlp
    subst hlc
    have hpass := dpPass_spec pcs hcost idx N st hinv
    have hrec := ih (idx + 1) (dpPass (profit1 pcs idx) (cost1 pcs idx) idx N st)
      hdrop'.symm hpass f hf
    have harith : idx + ((profit1 pcs idx, cost1 pcs idx) :: rest').length =
        idx + 1 + rest'.length := by
      simp only [List.length_cons]
      omega
    rw [harith]
    simpa [dpLoop] using hrec

lemma argmaxFirst_zero (mp : Nat → Int) : argmaxFirst mp 0 = 0 := by
  simp [argmaxFirst, List.range_succ]

lemma argmaxFirst_succ (mp : Nat → Int) (N : Nat) :
    argmaxFirst mp (N + 1) =
      if mp (argmaxFirst mp N) < mp (N + 1) then N + 1 else argmaxFirst mp N := by
  unfold argmaxFirst
  rw [List.range_succ, List.foldl_append]
  rfl

lemma argmaxFirst_spec (mp : Nat → Int) (N : Nat) :
    argmaxFirst mp N ≤ N ∧ (∀ f ≤ N, mp f ≤ mp (argmaxFirst mp N)) ∧
    (∀ g < argmaxFirst mp N, mp g < mp (argmaxFirst mp N)) := by
  induction N with
  | zero =>
    rw [argmaxFirst_zero]
    refine ⟨le_refl 0, ?_, ?_⟩
    · intro f hf
      rw [Nat.le_zero.mp hf]
    · intro g hg
      exact absurd hg (Nat.not_lt_zero g)
  | succ N ih =>
    rw [argmaxFirst_succ]
    by_cases h : mp (argmaxFirst mp N) < mp (N + 1)
    · rw [if_pos h]
      refine ⟨le_refl _, ?_, ?_⟩
      · intro f hf
        rcases Nat.eq_or_lt_of_le hf with rfl | hlt
        · exact le_refl _
        · exact le_of_lt (lt_of_le_of_lt (ih.2.1 f (Nat.lt_succ_iff.mp hlt)) h)
      · intro g hg
        exact lt_of_le_of_lt (ih.2.1 g (Nat.lt_succ_iff.mp hg)) h
    · rw [if_neg h]
      refine ⟨le_trans ih.1 (Nat.le_succ N), ?_, ih.2.2⟩
      intro f hf
      rcases Nat.eq_or_lt_of_le hf with rfl | hlt
      · exact le_of_not_lt h
      · exact ih.2.1 f (Nat.lt_succ_iff.mp hlt)

lemma dpCore_unfold (total_funds : Int) (pcs : List (Int × Int)) :
    dpCore total_funds pcs =
      ⟨(dpLoop total_funds.toNat 0 pcs (fun _ => 0, fun _ => [])).2
          (argmaxFirst (dpLoop total_funds.toNat 0 pcs (fun _ => 0, fun _ => [])).1
            total_funds.toNat),
        (dpLoop total_funds.toNat 0 pcs (fun _ => 0, fun _ => [])).1
          (argmaxFirst (dpLoop total_funds.toNat 0 pcs (fun _ => 0, fun _ => [])).1
            total_funds.toNat),
        ((argmaxFirst (dpLoop total_funds.toNat 0 pcs (fun _ => 0, fun _ => [])).1
            total_funds.toNat : Nat) : Int)⟩ := rfl

lemma dpCore_spec (pcs : List (Int × Int)) (total_funds : Int)
    (hcost : ∀ i, 0 ≤ cost1 pcs i) :
    (dpCore total_funds pcs).profit = profitOf pcs (dpCore total_funds pcs).lots ∧
    (dpCore total_funds pcs).cost = costOf pcs (dpCore total_funds pcs).lots ∧
    (dpCore total_funds pcs).lots.Pairwise (· < ·) ∧
    (∀ i ∈ (dpCore total_funds pcs).lots, i < pcs.length) ∧
    0 ≤ (dpCore total_funds pcs).profit ∧
    (dpCore total_funds pcs).cost ≤ ((total_funds.toNat : Nat) : Int) ∧
    (∀ S : List Nat, S.Pairwise (· < ·) → (∀ i ∈ S, i < pcs.length) →
      costOf pcs S ≤ ((total_funds.toNat : Nat) : Int) →
      profitOf pcs S ≤ (dpCore total_funds pcs).profit) := by
  set N := total_funds.toNat with hN
  set st := dpLoop N 0 pcs (fun _ => 0, fun _ => []) with hst
  have hinv : ∀ f ≤ N, DPInvAt pcs pcs.length st f := by
    have := dpLoop_spec pcs hcost N pcs 0 (fun _ => 0, fun _ => []) (by simp)
      (fun f _ => DPInvAt_init pcs f)
    simpa using this
  set mf := argmaxFirst st.1 N with hmf
  have hspec := argmaxFirst_spec st.1 N
  have hmfN : mf ≤ N := hspec.1
  obtain ⟨s1, s2, s3, s4, s5, s6⟩ := hinv mf hmfN
  have hr : dpCore total_funds pcs = ⟨st.2 mf, st.1 mf, (mf : Int)⟩ := by
    rw [dpCore_unfold, ← hN, ← hst, ← hmf]
  have hcnn : 0 ≤ costOf pcs (st.2 mf) := costOf_nonneg pcs hcost _
  have hcostexact : (mf : Int) = costOf pcs (st.2 mf) := by
    have hcnat : ((costOf pcs (st.2 mf)).toNat : Int) = costOf pcs (st.2 mf) :=
      Int.toNat_of_nonneg hcnn
    have hcn : (costOf pcs (st.2 mf)).toNat ≤ mf := Int.toNat_le.mpr s2
    have hcomp := (hinv (costOf pcs (st.2 mf)).toNat (le_trans hcn hmfN)).2.2.2.2.2
      (st.2 mf) s3 s4 (by rw [hcnat])
    rw [← s1] at hcomp
    rcases Nat.lt_or_ge (costOf pcs (st.2 mf)).toNat mf with hlt | hge
    · exact absurd (hspec.2.2 _ hlt) (not_lt.mpr hcomp)
    · have heq : mf = (costOf pcs (st.2 mf)).toNat := le_antisymm hge hcn
      exact (congrArg (fun n : Nat => (n : Int)) heq).trans hcnat
  refine ⟨?_, ?_, ?_, ?_, ?_, ?_, ?_⟩
  · rw [hr]
    exact s1
  · rw [hr]
    exact hcostexact
  · rw [hr]
    exact s3
  · rw [hr]
    exact s4
  · rw [hr]
    exact s5
  · rw [hr]
    exact_mod_cast Nat.cast_le.mpr hmfN
  · intro S hp hb hc
    rw [hr]
    have := (hinv N (le_refl N)).2.2.2.2.2 S hp hb hc
    exact le_trans this (hspec.2.1 N (le_refl N))

lemma calc_cost1_nonneg (bt : BaseTrader)
    (hc : ∀ lot ∈ bt.lots, 0 ≤ (bt.calculate_profit lot).2) :
    ∀ i, 0 ≤ cost1 (bt.lots.map bt.calculate_profit) i := by
  apply cost1_nonneg_of
  intro pc hpc
  obtain ⟨lot, hlot, rfl⟩ := List.mem_map.mp hpc
  exact hc lot hlot

/-- C1: on every instance on which the Python DP solver runs at all
(non-negative `total_funds` and non-negative per-lot costs — with a negative
lot cost or budget the Python list indexing raises, so no Result is
returned), `TraderSubset.calculate` and `TraderDP.calculate` return results
with equal `profit`. -/
theorem claim_C1_profit_equal (bt : BaseTrader) (htf : 0 ≤ bt.total_funds)
    (hc : ∀ lot ∈ bt.lots, 0 ≤ (bt.calculate_profit lot).2) :
    (TraderSubset.calculate bt).profit = (TraderDP.calculate bt).profit := by
  have hcost := calc_cost1_nonneg bt hc
  have hsub := subsetCore_sound (bt.lots.map bt.calculate_profit) bt.total_funds
  have hdp := dpCore_spec (bt.lots.map bt.calculate_profit) bt.total_funds hcost
  have hNcast : ((bt.total_funds.toNat : Nat) : Int) = bt.total_funds :=
    Int.toNat_of_nonneg htf
  show (subsetCore bt.total_funds (bt.lots.map bt.calculate_profit)).profit =
    (dpCore bt.total_funds (bt.lots.map bt.calculate_profit)).profit
  apply le_antisymm
  · obtain ⟨p1, p2, p3, p4, p5, p6⟩ := hsub
    rcases p6 with hnil | hle
    · rw [p1, hnil, profitOf_nil]
      exact hdp.2.2.2.2.1
    · rw [p1]
      apply hdp.2.2.2.2.2.2 _ p3 p4
      rw [hNcast, ← p2]
      exact hle
  · obtain ⟨q1, q2, q3, q4, q5, q6, q7⟩ := hdp
    rw [q1]
    apply subsetCore_complete (bt.lots.map bt.calculate_profit) bt.total_funds hcost _ q3 q4
    rw [← q2, ← hNcast]
    exact q6

/-- C1 (witness): the spec's concrete one-lot instance, where both solvers
return profit 800. -/
theorem claim_C1_profit_equal_witness :
    (TraderSubset.calculate ⟨1, 10000, [⟨1, "a", 95, 10⟩], 30, 1000, 1⟩).profit =
      (TraderDP.calculate ⟨1, 10000, [⟨1, "a", 95, 10⟩], 30, 1000, 1⟩).profit :=
  claim_C1_profit_equal ⟨1, 10000, [⟨1, "a", 95, 10⟩], 30, 1000, 1⟩ (by decide)
    (by norm_num [BaseTrader.calculate_profit, BaseTrader.days_factor])

lemma argmaxFirst_const_zero (N : Nat) : argmaxFirst (fun _ => (0 : Int)) N = 0 := by
  induction N with
  | zero => exact argmaxFirst_zero _
  | succ N ih =>
    rw [argmaxFirst_succ]
    simp [ih]

/-- C3: on an instance with no lots, both solvers return the zero-selection
result (profit 0, cost 0, empty selection) instead of failing (for the DP
solver this needs `0 ≤ total_funds`; with a negative budget the Python
`max()` over an empty range raises). -/
theorem claim_C3_empty_lots (bt : BaseTrader) (h : bt.lots = [])
    (htf : 0 ≤ bt.total_funds) :
    TraderSubset.calculate bt = ⟨[], 0, 0⟩ ∧ TraderDP.calculate bt = ⟨[], 0, 0⟩ := by
  constructor
  · show subsetCore bt.total_funds (bt.lots.map bt.calculate_profit) = ⟨[], 0, 0⟩
    rw [h]
    rfl
  · show dpCore bt.total_funds (bt.lots.map bt.calculate_profit) = ⟨[], 0, 0⟩
    rw [h]
    show (⟨(fun _ => ([] : List Nat)) (argmaxFirst (fun _ => (0 : Int)) bt.total_funds.toNat),
      (fun _ => (0 : Int)) (argmaxFirst (fun _ => (0 : Int)) bt.total_funds.toNat),
      ((argmaxFirst (fun _ => (0 : Int)) bt.total_funds.toNat : Nat) : Int)⟩ :
        LotsResultSchema) = ⟨[], 0, 0⟩
    rw [argmaxFirst_const_zero]
    rfl

/-- C3 (witness): the spec's empty-lots instance with `total_funds = 1000`
yields profit 0, cost 0 and the empty selection from both solvers. -/
theorem claim_C3_empty_lots_witness :
    TraderSubset.calculate ⟨0, 1000, [], 30, 1000, 1⟩ = ⟨[], 0, 0⟩ ∧
      TraderDP.calculate ⟨0, 1000, [], 30, 1000, 1⟩ = ⟨[], 0, 0⟩ :=
  claim_C3_empty_lots ⟨0, 1000, [], 30, 1000, 1⟩ rfl (by decide)

/-- C4: with a non-negative budget and non-negative per-lot costs, the cost
of the result of either solver never exceeds `total_funds`. -/
theorem claim_C4_cost_within_budget (bt : BaseTrader) (htf : 0 ≤ bt.total_funds)
    (hc : ∀ lot ∈ bt.lots, 0 ≤ (bt.calculate_profit lot).2) :
    (TraderSubset.calculate bt).cost ≤ bt.total_funds ∧
    (TraderDP.calculate bt).cost ≤ bt.total_funds := by
  constructor
  · obtain ⟨p1, p2, p3, p4, p5, p6⟩ :=
      subsetCore_sound (bt.lots.map bt.calculate_profit) bt.total_funds
    rcases p6 with hnil | hle
    · show (subsetCore bt.total_funds (bt.lots.map bt.calculate_profit)).cost ≤
        bt.total_funds
      rw [p2, hnil, costOf_nil]
      exact htf
    · exact hle
  · have hdp := dpCore_spec (bt.lots.map bt.calculate_profit) bt.total_funds
      (calc_cost1_nonneg bt hc)
    have := hdp.2.2.2.2.2.1
    rwa [Int.toNat_of_nonneg htf] at this

/-- C4 (witness): on the spec's concrete one-lot instance, both results cost
at most the budget 10000. -/
theorem claim_C4_cost_within_budget_witness :
    (TraderSubset.calculate ⟨1, 10000, [⟨1, "a", 95, 10⟩], 30, 1000, 1⟩).cost ≤ 10000 ∧
      (TraderDP.calculate ⟨1, 10000, [⟨1, "a", 95, 10⟩], 30, 1000, 1⟩).cost ≤ 10000 :=
  claim_C4_cost_within_budget ⟨1, 10000, [⟨1, "a", 95, 10⟩], 30, 1000, 1⟩
    (by decide) (by norm_num [BaseTrader.calculate_profit, BaseTrader.days_factor])

/-- C5: each solver returns a result whose `profit` is the sum of the
per-lot profits (first component of `_calculate_profit`) of the selected
lots, and whose `cost` is the sum of the per-lot costs (second component);
stated on the domain where the Python DP solver runs (non-negative budget
and per-lot costs). -/
theorem claim_C5_result_sums (bt : BaseTrader) (htf : 0 ≤ bt.total_funds)
    (hc : ∀ lot ∈ bt.lots, 0 ≤ (bt.calculate_profit lot).2) :
    (TraderSubset.calculate bt).profit =
      profitOf (bt.lots.map bt.calculate_profit) (TraderSubset.calculate bt).lots ∧
    (TraderSubset.calculate bt).cost =
      costOf (bt.lots.map bt.calculate_profit) (TraderSubset.calculate bt).lots ∧
    (TraderDP.calculate bt).profit =
      profitOf (bt.lots.map bt.calculate_profit) (TraderDP.calculate bt).lots ∧
    (TraderDP.calculate bt).cost =
      costOf (bt.lots.map bt.calculate_profit) (TraderDP.calculate bt).lots := by
  obtain ⟨p1, p2, _, _, _, _⟩ :=
    subsetCore_sound (bt.lots.map bt.calculate_profit) bt.total_funds
  have hdp := dpCore_spec (bt.lots.map bt.calculate_profit) bt.total_funds
    (calc_cost1_nonneg bt hc)
  exact ⟨p1, p2, hdp.1, hdp.2.1⟩

/-- C5 (witness): on the spec's concrete one-lot instance, both results are
the sums of the selected per-lot profits and costs. -/
theorem claim_C5_result_sums_witness :
    (TraderSubset.calculate ⟨1, 10000, [⟨1, "a", 95, 10⟩], 30, 1000, 1⟩).profit =
      profitOf
        (([⟨1, "a", 95, 10⟩] : List LotSchema).map
          (BaseTrader.calculate_profit ⟨1, 10000, [⟨1, "a", 95, 10⟩], 30, 1000, 1⟩))
        (TraderSubset.calculate ⟨1, 10000, [⟨1, "a", 95, 10⟩], 30, 1000, 1⟩).lots :=
  (claim_C5_result_sums ⟨1, 10000, [⟨1, "a", 95, 10⟩], 30, 1000, 1⟩
      (by decide) (by norm_num [BaseTrader.calculate_profit, BaseTrader.days_factor])).1

/-- C8: with the lot sequence and bond parameters held fixed, and budgets
`0 ≤ F1 ≤ F2` (and non-negative per-lot costs, the domain where the Python
DP solver runs), the profit returned by each solver with budget `F2` is at
least the profit returned with budget `F1`. -/
theorem claim_C8_profit_monotone (bt : BaseTrader) (F1 F2 : Int)
    (h1 : 0 ≤ F1) (h12 : F1 ≤ F2)
    (hc : ∀ lot ∈ bt.lots, 0 ≤ (bt.calculate_profit lot).2) :
    (TraderSubset.calculate { bt with total_funds := F1 }).profit ≤
      (TraderSubset.calculate { bt with total_funds := F2 }).profit ∧
    (TraderDP.calculate { bt with total_funds := F1 }).profit ≤
      (TraderDP.calculate { bt with total_funds := F2 }).profit := by
  have hcost := calc_cost1_nonneg bt hc
  have h2 : 0 ≤ F2 := le_trans h1 h12
  constructor
  · show (subsetCore F1 (bt.lots.map bt.calculate_profit)).profit ≤
      (subsetCore F2 (bt.lots.map bt.calculate_profit)).profit
    obtain ⟨p1, p2, p3, p4, _, p6⟩ :=
      subsetCore_sound (bt.lots.map bt.calculate_profit) F1
    rcases p6 with hnil | hle
    · rw [p1, hnil, profitOf_nil]
      exact (subsetCore_sound (bt.lots.map bt.calculate_profit) F2).2.2.2.2.1
    · rw [p1]
      apply subsetCore_complete (bt.lots.map bt.calculate_profit) F2 hcost _ p3 p4
      rw [← p2]
      exact le_trans hle h12
  · show (dpCore F1 (bt.lots.map bt.calculate_profit)).profit ≤
      (dpCore F2 (bt.lots.map bt.calculate_profit)).profit
    obtain ⟨q1, q2, q3, q4, _, q6, _⟩ :=
      dpCore_spec (bt.lots.map bt.calculate_profit) F1 hcost
    rw [q1]
    apply (dpCore_spec (bt.lots.map bt.calculate_profit) F2 hcost).2.2.2.2.2.2 _ q3 q4
    rw [← q2, Int.toNat_of_nonneg h2]
    rw [Int.toNat_of_nonneg h1] at q6
    exact le_trans q6 h12

/-- C8 (witness): on the spec's one-lot instance, raising the budget from
5000 to 10000 does not decrease the profit of either solver. -/
theorem claim_C8_profit_monotone_witness :
    (TraderSubset.calculate
        { (⟨1, 0, [⟨1, "a", 95, 10⟩], 30, 1000, 1⟩ : BaseTrader) with
            total_funds := 5000 }).profit ≤
      (TraderSubset.calculate
        { (⟨1, 0, [⟨1, "a", 95, 10⟩], 30, 1000, 1⟩ : BaseTrader) with
            total_funds := 10000 }).profit ∧
    (TraderDP.calculate
        { (⟨1, 0, [⟨1, "a", 95, 10⟩], 30, 1000, 1⟩ : BaseTrader) with
            total_funds := 5000 }).profit ≤
      (TraderDP.calculate
        { (⟨1, 0, [⟨1, "a", 95, 10⟩], 30, 1000, 1⟩ : BaseTrader) with
            total_funds := 10000 }).profit :=
  claim_C8_profit_monotone ⟨1, 0, [⟨1, "a", 95, 10⟩], 30, 1000, 1⟩ 5000 10000
    (by decide) (by decide)
    (by norm_num [BaseTrader.calculate_profit, BaseTrader.days_factor])

/-- C10: the selection returned by either solver is a strictly increasing
tuple of indices, hence without duplicates, and every index is a valid
position in the instance's lot list (stated on the domain where the Python
DP solver runs: non-negative budget and per-lot costs; the subset
conjuncts hold without those hypotheses). -/
theorem claim_C10_selection_indices (bt : BaseTrader) (htf : 0 ≤ bt.total_funds)
    (hc : ∀ lot ∈ bt.lots, 0 ≤ (bt.calculate_profit lot).2) :
    ((TraderSubset.calculate bt).lots.Pairwise (· < ·) ∧
      (TraderSubset.calculate bt).lots.Nodup ∧
      ∀ i ∈ (TraderSubset.calculate bt).lots, i < bt.lots.length) ∧
    ((TraderDP.calculate bt).lots.Pairwise (· < ·) ∧
      (TraderDP.calculate bt).lots.Nodup ∧
      ∀ i ∈ (TraderDP.calculate bt).lots, i < bt.lots.length) := by
  have hlen : (bt.lots.map bt.calculate_profit).length = bt.lots.length :=
    List.length_map _ _
  obtain ⟨_, _, p3, p4, _, _⟩ :=
    subsetCore_sound (bt.lots.map bt.calculate_profit) bt.total_funds
  have hdp := dpCore_spec (bt.lots.map bt.calculate_profit) bt.total_funds
    (calc_cost1_nonneg bt hc)
  obtain ⟨_, _, q3, q4, _, _, _⟩ := hdp
  rw [hlen] at p4 q4
  exact ⟨⟨p3, p3.imp (fun h => Nat.ne_of_lt h), p4⟩,
    ⟨q3, q3.imp (fun h => Nat.ne_of_lt h), q4⟩⟩

/-- C10 (witness): on the spec's one-lot instance, the selections of both
solvers are strictly increasing, duplicate-free, and within bounds. -/
theorem claim_C10_selection_indices_witness :
    ((TraderSubset.calculate ⟨1, 10000, [⟨1, "a", 95, 10⟩], 30, 1000, 1⟩).lots.Pairwise
        (· < ·) ∧
      (TraderSubset.calculate ⟨1, 10000, [⟨1, "a", 95, 10⟩], 30, 1000, 1⟩).lots.Nodup ∧
      ∀ i ∈ (TraderSubset.calculate ⟨1, 10000, [⟨1, "a", 95, 10⟩], 30, 1000, 1⟩).lots,
        i < ([⟨1, "a", 95, 10⟩] : List LotSchema).length) ∧
    ((TraderDP.calculate ⟨1, 10000, [⟨1, "a", 95, 10⟩], 30, 1000, 1⟩).lots.Pairwise
        (· < ·) ∧
      (TraderDP.calculate ⟨1, 10000, [⟨1, "a", 95, 10⟩], 30, 1000, 1⟩).lots.Nodup ∧
      ∀ i ∈ (TraderDP.calculate ⟨1, 10000, [⟨1, "a", 95, 10⟩], 30, 1000, 1⟩).lots,
        i < ([⟨1, "a", 95, 10⟩] : List LotSchema).length) :=
  claim_C10_selection_indices ⟨1, 10000, [⟨1, "a", 95, 10⟩], 30, 1000, 1⟩
    (by decide) (by norm_num [BaseTrader.calculate_profit, BaseTrader.days_factor])
